import Mathlib

set_option maxRecDepth 8000

/-!
Verification development for the Orbitalink transceiver repository.

The development embeds, in Lean:
* the differential line code applied on the TX side and undone on the RX
  side (the repository instantiates GNU Radio's `diff_encoder_bb(4)` /
  `diff_decoder_bb(4)`; the blocks' arithmetic is modelled from the spec);
* the `PacketExtractor` streaming state machine of `src/Receiver.py`
  (`general_work`), translated statement by statement, with Python integers
  modelled as `Int` and byte windows as `List Nat`.
-/

/-- Modelled from the spec: the differential encoder (the repository
instantiates GNU Radio's `diff_encoder_bb(M)`, whose code is not part of the
repository).  Given the previous symbol index `sprev` and the stream of input
bit groups, each step produces `s_cur = (s_prev + d) % M` and carries `s_cur`
forward as the new previous symbol. -/
def diff_encoder (M : Nat) : Nat → List Nat → List Nat
  | _, [] => []
  | sprev, d :: ds =>
    (sprev + d) % M :: diff_encoder M ((sprev + d) % M) ds

/-- Modelled from the spec: the differential decoder (the repository
instantiates GNU Radio's `diff_decoder_bb(M)`, whose code is not part of the
repository).  Given the previous received symbol `sprev` and the received
symbol stream, each step emits `d = (s_cur - s_prev) mod M` (written here with
natural-number arithmetic: `(s_cur + M - s_prev % M) % M`) and carries the raw
received symbol forward as the new previous symbol. -/
def diff_decoder (M : Nat) : Nat → List Nat → List Nat
  | _, [] => []
  | sprev, c :: cs =>
    (c + M - sprev % M) % M :: diff_decoder M c cs

/-- A constant channel rotation: every symbol is rotated by `r` modulo `M`. -/
def rotate (M r : Nat) (symbols : List Nat) : List Nat :=
  symbols.map (fun s => (s + r) % M)

/-- The two control states of `PacketExtractor` (`'SEARCHING'` / `'COPYING'`
in `src/Receiver.py`). -/
inductive ExtState where
  | Searching
  | Copying
deriving DecidableEq

/-- The mutable state of a `PacketExtractor` instance
(`src/Receiver.py`, lines 18-21).  Python integers are modelled as `Int`,
so that unvalidated (zero or negative) packet lengths are representable. -/
structure ExtractorState where
  packet_len : Int
  state : ExtState
  items_to_copy : Int
deriving DecidableEq

/-- A GNU Radio stream tag as seen by `PacketExtractor`: a key and an
absolute stream offset. -/
structure Tag where
  key : String
  offset : Nat
deriving DecidableEq

/-- `pmt.intern("packet_start")` (`src/Receiver.py`, line 19). -/
def start_key : String := "packet_start"

/-- `PacketExtractor.__init__` (`src/Receiver.py`, lines 14-21): the
constructor stores `packet_len_bytes` unchecked and starts in `SEARCHING`
with `items_to_copy = 0`. -/
def PacketExtractor.init (packet_len_bytes : Int) : ExtractorState :=
  { packet_len := packet_len_bytes, state := .Searching, items_to_copy := 0 }

/-- `self.get_tags_in_window(0, 0, len(in0))` (`src/Receiver.py`, line 26):
the tags whose absolute offset falls in `[nread, nread + winLen)`, where
`nread` is `self.nitems_read(0)`. -/
def getTagsInWindow (tags : List Tag) (nread winLen : Nat) : List Tag :=
  tags.filter (fun t => decide (nread ≤ t.offset) && decide (t.offset < nread + winLen))

/-- The `COPYING` block of `general_work` (`src/Receiver.py`, lines 43-54),
entered with the current read pointer `read_ptr` (and `write_ptr = 0`):
`items_to_process = min(len(in0) - read_ptr, items_to_copy, len(out0))`; if
positive, that many bytes are copied and the counters advance; if
`items_to_copy` hits `0` the state returns to `SEARCHING`.  Returns the new
state, the final read pointer, and the copied bytes. -/
def copyPhase (s : ExtractorState) (in0 : List Nat) (outCap : Nat) (read_ptr : Nat) :
    ExtractorState × Nat × List Nat :=
  let n : Int := min ((in0.length : Int) - (read_ptr : Int)) (min s.items_to_copy ((outCap : Int) - 0))
  if 0 < n then
    ({ s with items_to_copy := s.items_to_copy - n,
              state := if s.items_to_copy - n = 0 then .Searching else s.state },
      read_ptr + n.toNat,
      (in0.drop read_ptr).take n.toNat)
  else
    ({ s with state := if s.items_to_copy = 0 then .Searching else s.state },
      read_ptr, [])

/-- The values one invocation of `general_work` hands back to the framework:
the new extractor state, the argument of `self.consume(0, ·)`, the bytes
written to the output buffer (whose length is the argument of
`self.produce(0, ·)`), and the Python return value of the method. -/
structure WorkResult where
  st : ExtractorState
  consumed : Nat
  out : List Nat
  retval : Nat
deriving DecidableEq

/-- `PacketExtractor.general_work` (`src/Receiver.py`, lines 23-58).
`nread` is `self.nitems_read(0)`, `allTags` the tag stream (restricted to the
window by `getTagsInWindow`), `in0` the input window and `outCap` the output
buffer capacity `len(out0)`.  In `SEARCHING`, the first tag whose key is
`start_key` switches the state to `COPYING` with `items_to_copy = packet_len`
and sets `read_ptr` to the tag's window-local position; if no tag matches,
the whole window is consumed and the method returns `0`.  The `COPYING` block
then copies (`copyPhase`); finally `consume(0, read_ptr)`,
`produce(0, write_ptr)` and `return len(output_items[0])`. -/
def general_work (s : ExtractorState) (nread : Nat) (allTags : List Tag)
    (in0 : List Nat) (outCap : Nat) : WorkResult :=
  let tags := getTagsInWindow allTags nread in0.length
  match s.state with
  | .Searching =>
    match tags.find? (fun t => t.key == start_key) with
    | none => ⟨s, in0.length, [], 0⟩
    | some tag =>
      let s1 : ExtractorState := { s with state := .Copying, items_to_copy := s.packet_len }
      let r := copyPhase s1 in0 outCap (tag.offset - nread)
      ⟨r.1, r.2.1, r.2.2, outCap⟩
  | .Copying =>
    let r := copyPhase s in0 outCap 0
    ⟨r.1, r.2.1, r.2.2, outCap⟩

/-- Repeated invocation of `general_work` on one delivered window until the
window is fully consumed, re-delivering the unconsumed suffix each time (the
framework advances by exactly the consumed amount).  The output buffer
capacity is unbounded, modelled by handing each invocation a capacity equal
to the window length, which never binds the copy size.  `fuel` bounds the
number of invocations; `fuel = w.length` suffices whenever every invocation
makes progress.  Returns the final state, the final absolute read position,
and the concatenated produced bytes. -/
def driveWindow : Nat → ExtractorState → Nat → List Tag → List Nat →
    ExtractorState × Nat × List Nat
  | 0, s, nread, _, _ => (s, nread, [])
  | fuel + 1, s, nread, tags, w =>
    if w.length = 0 then (s, nread, [])
    else
      let r := general_work s nread tags w w.length
      let rest := driveWindow fuel r.st (nread + r.consumed) tags (w.drop r.consumed)
      (rest.1, rest.2.1, r.out ++ rest.2.2)

/-- Delivery of a stream as a sequence of windows: each window is driven to
full consumption (`driveWindow`) before the next window is delivered. -/
def drivePartition : ExtractorState → Nat → List Tag → List (List Nat) →
    ExtractorState × Nat × List Nat
  | s, nread, _, [] => (s, nread, [])
  | s, nread, tags, w :: ws =>
    let r1 := driveWindow w.length s nread tags w
    let r2 := drivePartition r1.1 r1.2.1 tags ws
    (r2.1, r2.2.1, r1.2.2 ++ r2.2.2)

/-- A sequence of raw invocations of `general_work`, each given the read
position, tag stream, window and output capacity; returns the final state. -/
def runInvocations : ExtractorState → List (Nat × List Tag × List Nat × Nat) → ExtractorState
  | s, [] => s
  | s, (nread, tags, in0, cap) :: rest =>
    runInvocations (general_work s nread tags in0 cap).st rest

/-- The state invariant of the extractor: `items_to_copy` stays between `0`
and `packet_len`, and the state is `COPYING` exactly when bytes remain to be
copied. -/
def ExtInv (s : ExtractorState) : Prop :=
  0 ≤ s.items_to_copy ∧ s.items_to_copy ≤ s.packet_len ∧
    (s.state = .Copying ↔ 0 < s.items_to_copy)

instance (s : ExtractorState) : Decidable (ExtInv s) := by
  unfold ExtInv
  infer_instance

/-- Tag offsets are non-decreasing in stream order (guaranteed by the
upstream correlator per the spec). -/
def TagsSorted (tags : List Tag) : Prop :=
  tags.Pairwise (fun a b => a.offset ≤ b.offset)

/-! ## Equation lemmas for `general_work` and `copyPhase` -/

theorem general_work_searching_none (pl itc : Int) (nread : Nat) (tags : List Tag)
    (in0 : List Nat) (cap : Nat)
    (h : (getTagsInWindow tags nread in0.length).find? (fun t => t.key == start_key) = none) :
    general_work ⟨pl, .Searching, itc⟩ nread tags in0 cap =
      ⟨⟨pl, .Searching, itc⟩, in0.length, [], 0⟩ := by
  simp only [general_work, h]

theorem general_work_searching_some (pl itc : Int) (nread : Nat) (tags : List Tag)
    (in0 : List Nat) (cap : Nat) (tag : Tag)
    (h : (getTagsInWindow tags nread in0.length).find? (fun t => t.key == start_key) = some tag) :
    general_work ⟨pl, .Searching, itc⟩ nread tags in0 cap =
      ⟨(copyPhase ⟨pl, .Copying, pl⟩ in0 cap (tag.offset - nread)).1,
       (copyPhase ⟨pl, .Copying, pl⟩ in0 cap (tag.offset - nread)).2.1,
       (copyPhase ⟨pl, .Copying, pl⟩ in0 cap (tag.offset - nread)).2.2, cap⟩ := by
  simp only [general_work, h]

theorem general_work_copying (pl itc : Int) (nread : Nat) (tags : List Tag)
    (in0 : List Nat) (cap : Nat) :
    general_work ⟨pl, .Copying, itc⟩ nread tags in0 cap =
      ⟨(copyPhase ⟨pl, .Copying, itc⟩ in0 cap 0).1,
       (copyPhase ⟨pl, .Copying, itc⟩ in0 cap 0).2.1,
       (copyPhase ⟨pl, .Copying, itc⟩ in0 cap 0).2.2, cap⟩ := rfl

theorem copyPhase_eq_pos (pl : Int) (st : ExtState) (itc : Int) (in0 : List Nat)
    (cap rp : Nat) (k : Nat)
    (hk : (k : Int) = min ((in0.length : Int) - (rp : Int)) (min itc ((cap : Int) - 0)))
    (hpos : 0 < k) :
    copyPhase ⟨pl, st, itc⟩ in0 cap rp =
      (⟨pl, if itc - (k : Int) = 0 then .Searching else st, itc - (k : Int)⟩,
        rp + k, (in0.drop rp).take k) := by
  unfold copyPhase
  dsimp only
  rw [← hk]
  have : (0 : Int) < (k : Int) := by exact_mod_cast hpos
  rw [if_pos this]
  simp [Int.toNat_ofNat]

theorem copyPhase_eq_nonpos (pl : Int) (st : ExtState) (itc : Int) (in0 : List Nat)
    (cap rp : Nat)
    (h : min ((in0.length : Int) - (rp : Int)) (min itc ((cap : Int) - 0)) ≤ 0) :
    copyPhase ⟨pl, st, itc⟩ in0 cap rp =
      (⟨pl, if itc = 0 then .Searching else st, itc⟩, rp, []) := by
  unfold copyPhase
  dsimp only
  rw [if_neg (by omega)]

theorem find_start_singleton (o nread winLen : Nat) (h1 : nread ≤ o) (h2 : o < nread + winLen) :
    (getTagsInWindow [⟨start_key, o⟩] nread winLen).find?
      (fun t => t.key == start_key) = some ⟨start_key, o⟩ := by
  simp [getTagsInWindow, h1, h2, List.find?]

/-! ## The differential line code -/

theorem diff_roundtrip_aux (ds : List Nat) : ∀ (s r : Nat), (∀ d ∈ ds, d < 4) →
    diff_decoder 4 ((s + r) % 4) (rotate 4 r (diff_encoder 4 s ds)) = ds := by
  induction ds with
  | nil => intro s r _; rfl
  | cons d ds ih =>
    intro s r h
    simp only [diff_encoder, rotate, List.map_cons, diff_decoder, List.cons.injEq]
    refine ⟨?_, ?_⟩
    · have hd : d < 4 := h d (List.mem_cons_self d ds)
      omega
    · have := ih ((s + d) % 4) r (fun x hx => h x (List.mem_cons_of_mem d hx))
      simpa [rotate] using this

/-- C1: with `M = 4`, differentially encoding any bit-group sequence from
`s_prev = 0`, rotating every encoded symbol by a constant `r ∈ [0, 4)`, and
differentially decoding from `s_prev = 0` recovers every input group from the
second position onward (only the first group can be affected by the initial
rotation). -/
theorem C1_rotation_roundtrip (b : List Nat) (r : Nat) (hr : r < 4)
    (hb : ∀ d ∈ b, d < 4) :
    (diff_decoder 4 0 (rotate 4 r (diff_encoder 4 0 b))).drop 1 = b.drop 1 := by
  cases b with
  | nil => rfl
  | cons d ds =>
    simp only [diff_encoder, rotate, List.map_cons, diff_decoder, List.drop_succ_cons,
      List.drop_zero]
    have := diff_roundtrip_aux ds ((0 + d) % 4) r (fun x hx => hb x (List.mem_cons_of_mem d hx))
    simpa [rotate] using this

theorem C1_rotation_roundtrip_witness :
    3 < 4 ∧ (∀ d ∈ [1, 2, 3, 0], d < 4) ∧
      (diff_decoder 4 0 (rotate 4 3 (diff_encoder 4 0 [1, 2, 3, 0]))).drop 1 =
        [1, 2, 3, 0].drop 1 :=
  ⟨by decide, by decide, C1_rotation_roundtrip [1, 2, 3, 0] 3 (by decide) (by decide)⟩

/-- C9: with `M = 4` and `s_prev = 0` on both sides, encoding the delta
indices `[1,2,3,0]` yields the symbols `[1,3,2,2]`, and decoding `[1,3,2,2]`
recovers `[1,2,3,0]`. -/
theorem C9_scenario_C :
    diff_encoder 4 0 [1, 2, 3, 0] = [1, 3, 2, 2] ∧
      diff_decoder 4 0 [1, 3, 2, 2] = [1, 2, 3, 0] := by
  decide

/-! ## Extractor scenario claims -/

/-- C4: a window delivered in `SEARCHING` that carries no `packet_start` tag
is reported fully consumed, produces nothing, and leaves the state (in fact
the whole extractor state) unchanged, hence still `SEARCHING`. -/
theorem C4_searching_no_event (s : ExtractorState) (hs : s.state = .Searching)
    (nread : Nat) (allTags : List Tag) (in0 : List Nat) (cap : Nat)
    (hno : ∀ t ∈ getTagsInWindow allTags nread in0.length, t.key ≠ start_key) :
    general_work s nread allTags in0 cap = ⟨s, in0.length, [], 0⟩ := by
  obtain ⟨pl, st, itc⟩ := s
  cases hs
  refine general_work_searching_none pl itc nread allTags in0 cap ?_
  rw [List.find?_eq_none]
  intro t ht
  simpa using hno t ht

set_option maxRecDepth 8000 in
theorem C4_searching_no_event_witness :
    general_work (PacketExtractor.init 256) 0 [] (List.replicate 1000 0) 50 =
      ⟨PacketExtractor.init 256, 1000, [], 0⟩ := by
  have h := C4_searching_no_event (PacketExtractor.init 256) rfl 0 []
    (List.replicate 1000 0) 50 (by simp [getTagsInWindow])
  simpa using h

/-- C3 (scenario A): in `SEARCHING` with `packetLength = 256`, a 300-byte
window with one sync event at local offset 50 and output capacity at least
250 is fully consumed (300 bytes), exactly the 250 bytes at window offsets
50..299 are copied, and the state becomes `COPYING` with 6 bytes remaining;
a next window of at least 6 bytes (with capacity at least 6) then completes
the 256-byte payload, copying exactly 6 bytes and returning to `SEARCHING`. -/
theorem C3_scenario_A (itc : Int) (nread : Nat) (in0 : List Nat)
    (h300 : in0.length = 300) (cap : Nat) (hcap : 250 ≤ cap)
    (nread1 : Nat) (tags1 : List Tag) (in1 : List Nat) (h6 : 6 ≤ in1.length)
    (cap1 : Nat) (hcap1 : 6 ≤ cap1) :
    general_work ⟨256, .Searching, itc⟩ nread [⟨start_key, nread + 50⟩] in0 cap =
      ⟨⟨256, .Copying, 6⟩, 300, in0.drop 50, cap⟩ ∧
    (general_work ⟨256, .Copying, 6⟩ nread1 tags1 in1 cap1).st = ⟨256, .Searching, 0⟩ ∧
    (general_work ⟨256, .Copying, 6⟩ nread1 tags1 in1 cap1).out = in1.take 6 ∧
    (general_work ⟨256, .Copying, 6⟩ nread1 tags1 in1 cap1).consumed = 6 := by
  have hfind := find_start_singleton (nread + 50) nread in0.length (by omega) (by omega)
  have h1 := general_work_searching_some 256 itc nread [⟨start_key, nread + 50⟩] in0 cap
    ⟨start_key, nread + 50⟩ hfind
  have hcp := copyPhase_eq_pos 256 .Copying 256 in0 cap ((nread + 50) - nread) 250
    (by push_cast; omega) (by omega)
  have h2 := general_work_copying 256 6 nread1 tags1 in1 cap1
  have hcp2 := copyPhase_eq_pos 256 .Copying 6 in1 cap1 0 6
    (by push_cast; omega) (by omega)
  refine ⟨?_, ?_, ?_, ?_⟩
  · rw [h1, hcp]
    have hpos : (nread + 50) - nread = 50 := by omega
    rw [hpos]
    have hout : (in0.drop 50).take 250 = in0.drop 50 := by
      apply List.take_of_length_le
      rw [List.length_drop, h300]
    simp [hout]
  · rw [h2, hcp2]; simp
  · rw [h2, hcp2]; simp
  · rw [h2, hcp2]

theorem C3_scenario_A_witness :
    general_work ⟨256, .Searching, 0⟩ 0 [⟨start_key, 0 + 50⟩] (List.replicate 300 7) 250 =
      ⟨⟨256, .Copying, 6⟩, 300, (List.replicate 300 7).drop 50, 250⟩ ∧
    (general_work ⟨256, .Copying, 6⟩ 300 [] [1, 2, 3, 4, 5, 6] 6).st = ⟨256, .Searching, 0⟩ ∧
    (general_work ⟨256, .Copying, 6⟩ 300 [] [1, 2, 3, 4, 5, 6] 6).out = [1, 2, 3, 4, 5, 6].take 6 ∧
    (general_work ⟨256, .Copying, 6⟩ 300 [] [1, 2, 3, 4, 5, 6] 6).consumed = 6 :=
  C3_scenario_A 0 0 (List.replicate 300 7) (by simp) 250 (by decide)
    300 [] [1, 2, 3, 4, 5, 6] (by decide) 6 (by decide)

/-- C5: an invocation that starts in `COPYING` (with bytes remaining) is
completely independent of the sync events delivered with the window — the
result (state, read cursor, remaining count, output) is the same for any two
tag sets — and the resulting state is back in `SEARCHING` exactly when the
remaining count has reached `0`, so a new packet-start search begins only
after the current payload completes. -/
theorem C5_copying_ignores_events (s : ExtractorState) (hs : s.state = .Copying)
    (hr : 0 < s.items_to_copy) (nread : Nat) (tags1 tags2 : List Tag)
    (in0 : List Nat) (cap : Nat) :
    general_work s nread tags1 in0 cap = general_work s nread tags2 in0 cap ∧
    ((general_work s nread tags1 in0 cap).st.state = .Searching ↔ 
      (general_work s nread tags1 in0 cap).st.items_to_copy = 0) := by
  obtain ⟨pl, st, itc⟩ := s
  cases hs
  dsimp only at hr
  refine ⟨rfl, ?_⟩
  rw [general_work_copying]
  dsimp only
  by_cases hpos : 0 < min ((in0.length : Int) - ((0 : Nat) : Int)) (min itc ((cap : Int) - 0))
  · rw [copyPhase_eq_pos pl .Copying itc in0 cap 0
      (min ((in0.length : Int) - ((0 : Nat) : Int)) (min itc ((cap : Int) - 0))).toNat
      (by omega) (by omega)]
    dsimp only
    split
    · next h => exact iff_of_true rfl h
    · next h => exact iff_of_false (by simp) h
  · rw [copyPhase_eq_nonpos pl .Copying itc in0 cap 0 (by omega)]
    dsimp only
    have hne : ¬ itc = 0 := by omega
    rw [if_neg hne]
    simp [hne]

theorem C5_copying_ignores_events_witness :
    general_work ⟨256, .Copying, 6⟩ 0 [⟨start_key, 2⟩] [1, 2, 3] 10 =
      general_work ⟨256, .Copying, 6⟩ 0 [] [1, 2, 3] 10 ∧
    ((general_work ⟨256, .Copying, 6⟩ 0 [⟨start_key, 2⟩] [1, 2, 3] 10).st.state = .Searching ↔
      (general_work ⟨256, .Copying, 6⟩ 0 [⟨start_key, 2⟩] [1, 2, 3] 10).st.items_to_copy = 0) :=
  C5_copying_ignores_events ⟨256, .Copying, 6⟩ rfl (by decide) 0 [⟨start_key, 2⟩] [] [1, 2, 3] 10

/-- C6 is refuted by the code: with `packetLength = 256`, a `SEARCHING`
extractor given the one-byte window `[7]` whose sync event lands on its last
(only) byte and output capacity `10` does (contrary to the claim) copy that
byte and leaves `remaining = 255`, not `256` with zero bytes copied. -/
theorem C6_boundary_counterexample :
    ¬ ((general_work ⟨256, .Searching, 0⟩ 0 [⟨start_key, 0⟩] [7] 10).st.items_to_copy = 256 ∧
       (general_work ⟨256, .Searching, 0⟩ 0 [⟨start_key, 0⟩] [7] 10).out = []) := by
  decide

/-- C6 (amended): a sync event landing exactly at the last byte of a window
delivered in `SEARCHING` (with `packetLength > 1` and output capacity at
least 1) transitions to `COPYING` with `remaining = packetLength - 1`, and
exactly one byte — the byte at the event position — is copied in that
invocation; the whole window is consumed. -/
theorem C6_boundary_amended (pl itc : Int) (hpl : 1 < pl) (nread : Nat)
    (in0 : List Nat) (hne : in0 ≠ []) (cap : Nat) (hcap : 1 ≤ cap) :
    general_work ⟨pl, .Searching, itc⟩ nread [⟨start_key, nread + in0.length - 1⟩] in0 cap =
      ⟨⟨pl, .Copying, pl - 1⟩, in0.length, in0.drop (in0.length - 1), cap⟩ := by
  have hlen : 1 ≤ in0.length := by
    cases in0 with
    | nil => exact absurd rfl hne
    | cons a l => simp
  have hoff : nread + in0.length - 1 = nread + (in0.length - 1) := by omega
  have hfind := find_start_singleton (nread + in0.length - 1) nread in0.length
    (by omega) (by omega)
  rw [general_work_searching_some pl itc nread _ in0 cap _ hfind]
  have hrp : (nread + in0.length - 1) - nread = in0.length - 1 := by omega
  rw [hrp]
  have hcp := copyPhase_eq_pos pl .Copying pl in0 cap (in0.length - 1) 1
    (by push_cast; omega) (by omega)
  rw [hcp]
  have hs : ¬ (pl - ((1 : Nat) : Int) = 0) := by push_cast; omega
  have htk : (in0.drop (in0.length - 1)).take 1 = in0.drop (in0.length - 1) := by
    apply List.take_of_length_le
    rw [List.length_drop]
    omega
  rw [if_neg hs, htk]
  have hlen1 : in0.length - 1 + 1 = in0.length := by omega
  rw [hlen1]
  push_cast
  rfl

theorem C6_boundary_amended_witness :
    general_work ⟨256, .Searching, 0⟩ 0 [⟨start_key, 0 + 1 - 1⟩] [7] 10 =
      ⟨⟨256, .Copying, 256 - 1⟩, 1, [7].drop (1 - 1), 10⟩ :=
  C6_boundary_amended 256 0 (by decide) 0 [7] (by decide) 10 (by decide)

/-- C7 is refuted by the code: on an invocation in `COPYING` with 6 bytes
remaining, a 6-byte window and output capacity 100, the code writes 6 bytes
(and reports 6 via `self.produce`) but the Python method then returns
`len(output_items[0]) = 100` to the framework; the two reports of the
produced amount disagree, so the pair handed back is not exactly
(consumed, produced). -/
theorem C7_return_value_mismatch :
    (general_work ⟨256, .Copying, 6⟩ 0 [] [1, 2, 3, 4, 5, 6] 100).out.length = 6 ∧
    (general_work ⟨256, .Copying, 6⟩ 0 [] [1, 2, 3, 4, 5, 6] 100).consumed = 6 ∧
    (general_work ⟨256, .Copying, 6⟩ 0 [] [1, 2, 3, 4, 5, 6] 100).retval = 100 := by
  decide

/-- C8 is refuted by the code: `PacketExtractor.__init__` performs no
validation, so under the malformed configuration `packetLength = 0`
construction succeeds and a 5-byte window is nevertheless processed (fully
consumed) by `general_work`. -/
theorem C8_no_validation_counterexample :
    (general_work (PacketExtractor.init 0) 0 [] [1, 2, 3, 4, 5] 8).consumed = 5 := by
  decide

/-- C8 (amended): construction performs no validation at all — for every
`packetLength`, including zero and negative values, the constructor succeeds
and yields the initial state `(SEARCHING, remaining = 0)`; the alphabet size
`M` is hard-coded to 4 and not configurable, so no startup rejection exists. -/
theorem C8_no_validation_amended (p : Int) :
    PacketExtractor.init p = ⟨p, .Searching, 0⟩ := rfl

/-! ## The extractor state invariant (C10) -/

theorem copyPhase_inv (pl itc : Int) (in0 : List Nat) (cap rp : Nat)
    (h0 : 0 ≤ itc) (hle : itc ≤ pl) :
    ExtInv (copyPhase ⟨pl, .Copying, itc⟩ in0 cap rp).1 ∧
    (copyPhase ⟨pl, .Copying, itc⟩ in0 cap rp).1.packet_len = pl := by
  by_cases hpos : 0 < min ((in0.length : Int) - (rp : Int)) (min itc ((cap : Int) - 0))
  · rw [copyPhase_eq_pos pl .Copying itc in0 cap rp
      (min ((in0.length : Int) - (rp : Int)) (min itc ((cap : Int) - 0))).toNat
      (by omega) (by omega)]
    refine ⟨⟨by dsimp only; omega, by dsimp only; omega, ?_⟩, rfl⟩
    dsimp only
    split
    · next h => exact iff_of_false (by simp) (by omega)
    · next h => exact iff_of_true rfl (by omega)
  · rw [copyPhase_eq_nonpos pl .Copying itc in0 cap rp (by omega)]
    refine ⟨⟨h0, hle, ?_⟩, rfl⟩
    dsimp only
    split
    · next h => exact iff_of_false (by simp) (by omega)
    · next h => exact iff_of_true rfl (by omega)

theorem general_work_inv (s : ExtractorState) (hpl : 0 < s.packet_len) (hinv : ExtInv s)
    (nread : Nat) (tags : List Tag) (in0 : List Nat) (cap : Nat) :
    ExtInv (general_work s nread tags in0 cap).st ∧
    (general_work s nread tags in0 cap).st.packet_len = s.packet_len := by
  obtain ⟨pl, st, itc⟩ := s
  obtain ⟨h0, hle, hiff⟩ := hinv
  dsimp only at hpl h0 hle hiff
  cases st with
  | Searching =>
    cases hfind : (getTagsInWindow tags nread in0.length).find? (fun t => t.key == start_key) with
    | none =>
      rw [general_work_searching_none pl itc nread tags in0 cap hfind]
      exact ⟨⟨h0, hle, hiff⟩, rfl⟩
    | some tag =>
      rw [general_work_searching_some pl itc nread tags in0 cap tag hfind]
      exact copyPhase_inv pl pl in0 cap (tag.offset - nread) (by omega) (by omega)
  | Copying =>
    rw [general_work_copying pl itc nread tags in0 cap]
    exact copyPhase_inv pl itc in0 cap 0 h0 hle

theorem runInvocations_inv (calls : List (Nat × List Tag × List Nat × Nat)) :
    ∀ s : ExtractorState, 0 < s.packet_len → ExtInv s →
      ExtInv (runInvocations s calls) ∧
      (runInvocations s calls).packet_len = s.packet_len := by
  induction calls with
  | nil => intro s _ h2; exact ⟨h2, rfl⟩
  | cons c rest ih =>
    intro s h1 h2
    obtain ⟨nread, tags, in0, cap⟩ := c
    have hstep := general_work_inv s h1 h2 nread tags in0 cap
    have htail := ih (general_work s nread tags in0 cap).st
      (by rw [hstep.2]; exact h1) hstep.1
    have hrw : runInvocations s ((nread, tags, in0, cap) :: rest) =
        runInvocations (general_work s nread tags in0 cap).st rest := rfl
    rw [hrw, htail.2, hstep.2]
    exact ⟨htail.1, rfl⟩

/-- C10: starting from the freshly constructed extractor with a positive
`packetLength`, after any sequence of invocations (any windows, tag sets and
output capacities) the state is one of `SEARCHING`/`COPYING`, the remaining
count lies between `0` and `packetLength`, the state is `COPYING` exactly
when the remaining count is positive, and `packetLength` never changes. -/
theorem C10_reachable_invariant (p : Int) (hp : 0 < p)
    (calls : List (Nat × List Tag × List Nat × Nat)) :
    ((runInvocations (PacketExtractor.init p) calls).state = .Searching ∨
     (runInvocations (PacketExtractor.init p) calls).state = .Copying) ∧
    0 ≤ (runInvocations (PacketExtractor.init p) calls).items_to_copy ∧
    (runInvocations (PacketExtractor.init p) calls).items_to_copy ≤
      (runInvocations (PacketExtractor.init p) calls).packet_len ∧
    ((runInvocations (PacketExtractor.init p) calls).state = .Copying ↔
      0 < (runInvocations (PacketExtractor.init p) calls).items_to_copy) ∧
    (runInvocations (PacketExtractor.init p) calls).packet_len = p := by
  have hinit : ExtInv (PacketExtractor.init p) :=
    ⟨le_refl 0, le_of_lt hp, iff_of_false (by simp [PacketExtractor.init]) (lt_irrefl 0)⟩
  have h := runInvocations_inv calls (PacketExtractor.init p) hp hinit
  obtain ⟨⟨h0, hle, hiff⟩, hplen⟩ := h
  refine ⟨?_, h0, hle, hiff, hplen⟩
  cases hstate : (runInvocations (PacketExtractor.init p) calls).state with
  | Searching => exact Or.inl rfl
  | Copying => exact Or.inr rfl

theorem C10_reachable_invariant_witness :
    ((runInvocations (PacketExtractor.init 256) [(0, [⟨start_key, 3⟩], [1, 2, 3, 4, 5], 9)]).state
        = .Searching ∨
     (runInvocations (PacketExtractor.init 256) [(0, [⟨start_key, 3⟩], [1, 2, 3, 4, 5], 9)]).state
        = .Copying) ∧
    0 ≤ (runInvocations (PacketExtractor.init 256)
          [(0, [⟨start_key, 3⟩], [1, 2, 3, 4, 5], 9)]).items_to_copy ∧
    (runInvocations (PacketExtractor.init 256)
          [(0, [⟨start_key, 3⟩], [1, 2, 3, 4, 5], 9)]).items_to_copy ≤
      (runInvocations (PacketExtractor.init 256)
          [(0, [⟨start_key, 3⟩], [1, 2, 3, 4, 5], 9)]).packet_len ∧
    ((runInvocations (PacketExtractor.init 256)
          [(0, [⟨start_key, 3⟩], [1, 2, 3, 4, 5], 9)]).state = .Copying ↔
      0 < (runInvocations (PacketExtractor.init 256)
          [(0, [⟨start_key, 3⟩], [1, 2, 3, 4, 5], 9)]).items_to_copy) ∧
    (runInvocations (PacketExtractor.init 256)
          [(0, [⟨start_key, 3⟩], [1, 2, 3, 4, 5], 9)]).packet_len = 256 :=
  C10_reachable_invariant 256 (by decide) [(0, [⟨start_key, 3⟩], [1, 2, 3, 4, 5], 9)]

/-! ## Windowed delivery machinery (C2) -/

theorem driveWindow_nil (fuel : Nat) (s : ExtractorState) (nread : Nat) (tags : List Tag) :
    driveWindow fuel s nread tags [] = (s, nread, []) := by
  cases fuel <;> rfl

theorem driveWindow_pos (fuel : Nat) (hfuel : fuel ≠ 0) (s : ExtractorState) (nread : Nat)
    (tags : List Tag) (w : List Nat) (hne : w.length ≠ 0) :
    driveWindow fuel s nread tags w =
      ((driveWindow (fuel - 1) (general_work s nread tags w w.length).st
          (nread + (general_work s nread tags w w.length).consumed) tags
          (w.drop (general_work s nread tags w w.length).consumed)).1,
       (driveWindow (fuel - 1) (general_work s nread tags w w.length).st
          (nread + (general_work s nread tags w w.length).consumed) tags
          (w.drop (general_work s nread tags w w.length).consumed)).2.1,
       (general_work s nread tags w w.length).out ++
         (driveWindow (fuel - 1) (general_work s nread tags w w.length).st
            (nread + (general_work s nread tags w w.length).consumed) tags
            (w.drop (general_work s nread tags w w.length).consumed)).2.2) := by
  cases fuel with
  | zero => exact absurd rfl hfuel
  | succ f =>
    simp only [driveWindow, Nat.add_sub_cancel]
    rw [if_neg hne]

theorem tag_in_window_bounds (tags : List Tag) (nread winLen : Nat) (tag : Tag)
    (h : (getTagsInWindow tags nread winLen).find? (fun t => t.key == start_key) = some tag) :
    nread ≤ tag.offset ∧ tag.offset < nread + winLen := by
  have hm := List.mem_of_find?_eq_some h
  unfold getTagsInWindow at hm
  rw [List.mem_filter] at hm
  have := hm.2
  simp at this
  exact this

theorem general_work_consumed_pos (s : ExtractorState) (hpl : 0 < s.packet_len)
    (hinv : ExtInv s) (nread : Nat) (tags : List Tag) (w : List Nat) (hw : w.length ≠ 0) :
    0 < (general_work s nread tags w w.length).consumed := by
  obtain ⟨pl, st, itc⟩ := s
  obtain ⟨h0, hle, hiff⟩ := hinv
  dsimp only at hpl h0 hle hiff
  cases st with
  | Searching =>
    cases hfind : (getTagsInWindow tags nread w.length).find? (fun t => t.key == start_key) with
    | none =>
      rw [general_work_searching_none pl itc nread tags w w.length hfind]
      dsimp only
      omega
    | some tag =>
      rw [general_work_searching_some pl itc nread tags w w.length tag hfind]
      have hb := tag_in_window_bounds tags nread w.length tag hfind
      have hrp : tag.offset - nread < w.length := by omega
      rw [copyPhase_eq_pos pl .Copying pl w w.length (tag.offset - nread)
        (min ((w.length : Int) - ((tag.offset - nread : Nat) : Int))
          (min pl ((w.length : Int) - 0))).toNat (by omega) (by omega)]
      dsimp only
      omega
  | Copying =>
    have hitc : 0 < itc := hiff.mp rfl
    rw [general_work_copying pl itc nread tags w w.length]
    rw [copyPhase_eq_pos pl .Copying itc w w.length 0
      (min ((w.length : Int) - ((0 : Nat) : Int)) (min itc ((w.length : Int) - 0))).toNat
      (by omega) (by omega)]
    dsimp only
    omega

theorem driveWindow_inv (fuel : Nat) :
    ∀ (s : ExtractorState) (nread : Nat) (tags : List Tag) (w : List Nat),
      0 < s.packet_len → ExtInv s →
      ExtInv (driveWindow fuel s nread tags w).1 ∧
      (driveWindow fuel s nread tags w).1.packet_len = s.packet_len := by
  induction fuel with
  | zero => intro s nread tags w _ hinv; exact ⟨hinv, rfl⟩
  | succ f ih =>
    intro s nread tags w hpl hinv
    by_cases hne : w.length = 0
    · simp only [driveWindow, if_pos hne]
      exact ⟨hinv, trivial⟩
    · rw [driveWindow_pos (f + 1) (by omega) s nread tags w hne]
      simp only [Nat.add_sub_cancel]
      have hstep := general_work_inv s hpl hinv nread tags w w.length
      have := ih (general_work s nread tags w w.length).st
        (nread + (general_work s nread tags w w.length).consumed) tags
        (w.drop (general_work s nread tags w w.length).consumed)
        (by rw [hstep.2]; exact hpl) hstep.1
      refine ⟨this.1, ?_⟩
      rw [this.2, hstep.2]

theorem driveWindow_fuel_eq (tags : List Tag) :
    ∀ (N : Nat) (w : List Nat), w.length ≤ N →
      ∀ (fuel1 fuel2 : Nat) (s : ExtractorState) (nread : Nat),
        0 < s.packet_len → ExtInv s → w.length ≤ fuel1 → w.length ≤ fuel2 →
        driveWindow fuel1 s nread tags w = driveWindow fuel2 s nread tags w := by
  intro N
  induction N with
  | zero =>
    intro w hw fuel1 fuel2 s nread _ _ _ _
    have hnil : w = [] := List.length_eq_zero.mp (by omega)
    subst hnil
    rw [driveWindow_nil, driveWindow_nil]
  | succ N ih =>
    intro w hw fuel1 fuel2 s nread hpl hinv h1 h2
    by_cases hne : w.length = 0
    · have hnil : w = [] := List.length_eq_zero.mp hne
      subst hnil
      rw [driveWindow_nil, driveWindow_nil]
    · have hf1 : fuel1 ≠ 0 := by omega
      have hf2 : fuel2 ≠ 0 := by omega
      rw [driveWindow_pos fuel1 hf1 s nread tags w hne,
          driveWindow_pos fuel2 hf2 s nread tags w hne]
      have hstep := general_work_inv s hpl hinv nread tags w w.length
      have hcons := general_work_consumed_pos s hpl hinv nread tags w hne
      have hlen : (w.drop (general_work s nread tags w w.length).consumed).length ≤ N := by
        rw [List.length_drop]; omega
      have hrec := ih (w.drop (general_work s nread tags w w.length).consumed) hlen
        (fuel1 - 1) (fuel2 - 1) (general_work s nread tags w w.length).st
        (nread + (general_work s nread tags w w.length).consumed)
        (by rw [hstep.2]; exact hpl) hstep.1
        (by rw [List.length_drop]; omega) (by rw [List.length_drop]; omega)
      rw [hrec]

/-! ## Transfer lemmas for the first matching tag under window restriction -/

theorem find?_filter_sub {α : Type} (p q1 q2 : α → Bool)
    (hq : ∀ x, q2 x = true → q1 x = true) :
    ∀ (l : List α) (a : α), (l.filter q1).find? p = some a → q2 a = true →
      (l.filter q2).find? p = some a := by
  intro l
  induction l with
  | nil => intro a h _; simp at h
  | cons x xs ih =>
    intro a h ha
    by_cases hq1x : q1 x = true
    · rw [List.filter_cons_of_pos hq1x] at h
      by_cases hpx : p x = true
      · rw [List.find?_cons_of_pos _ hpx] at h
        have hax : a = x := by injection h with h; exact h.symm
        subst hax
        rw [List.filter_cons_of_pos ha, List.find?_cons_of_pos _ hpx]
      · rw [List.find?_cons_of_neg _ hpx] at h
        by_cases hq2x : q2 x = true
        · rw [List.filter_cons_of_pos hq2x, List.find?_cons_of_neg _ hpx]
          exact ih a h ha
        · rw [List.filter_cons_of_neg (by simpa using hq2x)]
          exact ih a h ha
    · rw [List.filter_cons_of_neg (by simpa using hq1x)] at h
      have hq2x : ¬ q2 x = true := fun hc => hq1x (hq x hc)
      rw [List.filter_cons_of_neg (by simpa using hq2x)]
      exact ih a h ha

theorem find?_filter_none_sub {α : Type} (p q1 q2 : α → Bool)
    (hq : ∀ x, q2 x = true → q1 x = true) (l : List α)
    (h : (l.filter q1).find? p = none) : (l.filter q2).find? p = none := by
  rw [List.find?_eq_none] at h ⊢
  intro a ha
  rw [List.mem_filter] at ha
  exact h a (List.mem_filter.mpr ⟨ha.1, hq a ha.2⟩)

theorem find?_filter_high_none (p q1 q2 : Tag → Bool) (bnd : Nat)
    (hq : ∀ x, q2 x = true → q1 x = true ∧ x.offset < bnd) :
    ∀ (l : List Tag), TagsSorted l → ∀ (a : Tag),
      (l.filter q1).find? p = some a → bnd ≤ a.offset →
      (l.filter q2).find? p = none := by
  intro l
  induction l with
  | nil => intro _ a h _; simp at h
  | cons x xs ih =>
    intro hsort a h ha
    have hsx : ∀ y ∈ xs, x.offset ≤ y.offset := fun y hy => (List.pairwise_cons.mp hsort).1 y hy
    have hsxs : TagsSorted xs := (List.pairwise_cons.mp hsort).2
    by_cases hq1x : q1 x = true
    · rw [List.filter_cons_of_pos hq1x] at h
      by_cases hpx : p x = true
      · rw [List.find?_cons_of_pos _ hpx] at h
        have hax : a = x := by injection h with h; exact h.symm
        subst hax
        rw [List.find?_eq_none]
        intro y hy hpy
        rw [List.mem_filter] at hy
        have hylt : y.offset < bnd := (hq y hy.2).2
        rcases List.mem_cons.mp hy.1 with hyx | hyxs
        · subst hyx; omega
        · have := hsx y hyxs; omega
      · rw [List.find?_cons_of_neg _ hpx] at h
        by_cases hq2x : q2 x = true
        · rw [List.filter_cons_of_pos hq2x, List.find?_cons_of_neg _ hpx]
          exact ih hsxs a h ha
        · rw [List.filter_cons_of_neg (by simpa using hq2x)]
          exact ih hsxs a h ha
    · rw [List.filter_cons_of_neg (by simpa using hq1x)] at h
      have hq2x : ¬ q2 x = true := fun hc => hq1x (hq x hc).1
      rw [List.filter_cons_of_neg (by simpa using hq2x)]
      exact ih hsxs a h ha

theorem copyPhase_split (pl itc : Int) (st : ExtState) (hitc : 0 < itc)
    (w1 w2 : List Nat) (hw2 : w2.length ≠ 0) (rp : Nat) (hrp : rp < w1.length) :
    (copyPhase ⟨pl, st, itc⟩ (w1 ++ w2) (w1.length + w2.length) rp =
       copyPhase ⟨pl, st, itc⟩ w1 w1.length rp ∧
     (copyPhase ⟨pl, st, itc⟩ (w1 ++ w2) (w1.length + w2.length) rp).2.1 ≤ w1.length)
    ∨ (w1.length < (copyPhase ⟨pl, st, itc⟩ (w1 ++ w2) (w1.length + w2.length) rp).2.1 ∧
       (copyPhase ⟨pl, st, itc⟩ w1 w1.length rp).2.1 = w1.length ∧
       (copyPhase ⟨pl, st, itc⟩ w1 w1.length rp).1 =
         ⟨pl, st, itc - ((w1.length - rp : Nat) : Int)⟩ ∧
       0 < itc - ((w1.length - rp : Nat) : Int) ∧
       (copyPhase ⟨pl, st, itc⟩ (w1 ++ w2) (w1.length + w2.length) rp).1 =
         (copyPhase ⟨pl, st, itc - ((w1.length - rp : Nat) : Int)⟩ w2 w2.length 0).1 ∧
       (copyPhase ⟨pl, st, itc⟩ (w1 ++ w2) (w1.length + w2.length) rp).2.1 =
         w1.length + (copyPhase ⟨pl, st, itc - ((w1.length - rp : Nat) : Int)⟩ w2 w2.length 0).2.1 ∧
       (copyPhase ⟨pl, st, itc⟩ (w1 ++ w2) (w1.length + w2.length) rp).2.2 =
         (copyPhase ⟨pl, st, itc⟩ w1 w1.length rp).2.2 ++
           (copyPhase ⟨pl, st, itc - ((w1.length - rp : Nat) : Int)⟩ w2 w2.length 0).2.2) := by
  by_cases hcase : itc ≤ ((w1.length - rp : Nat) : Int)
  · -- the copy finishes inside `w1`: the combined call equals the `w1`-only call
    have hkC : ((itc.toNat : Nat) : Int) =
        min (((w1 ++ w2).length : Int) - (rp : Int)) (min itc (((w1.length + w2.length : Nat) : Int) - 0)) := by
      rw [List.length_append]; push_cast; omega
    have hkA : ((itc.toNat : Nat) : Int) =
        min ((w1.length : Int) - (rp : Int)) (min itc ((w1.length : Int) - 0)) := by
      push_cast; omega
    rw [copyPhase_eq_pos pl st itc (w1 ++ w2) (w1.length + w2.length) rp itc.toNat hkC (by omega),
        copyPhase_eq_pos pl st itc w1 w1.length rp itc.toNat hkA (by omega)]
    left
    have hout : ((w1 ++ w2).drop rp).take itc.toNat = (w1.drop rp).take itc.toNat := by
      rw [List.drop_append_of_le_length (by omega),
          List.take_append_of_le_length (by rw [List.length_drop]; omega)]
    rw [hout]
    exact ⟨rfl, by dsimp only; omega⟩
  · -- the copy crosses the `w1`/`w2` boundary
    have hitcA : 0 < itc - ((w1.length - rp : Nat) : Int) := by omega
    have hkA : (((w1.length - rp : Nat) : Nat) : Int) =
        min ((w1.length : Int) - (rp : Int)) (min itc ((w1.length : Int) - 0)) := by
      push_cast; omega
    rw [copyPhase_eq_pos pl st itc w1 w1.length rp (w1.length - rp) hkA (by omega)]
    have hifA : ¬ (itc - (((w1.length - rp : Nat) : Nat) : Int) = 0) := by push_cast; omega
    rw [if_neg hifA]
    have hkB : (((min ((w2.length : Int)) (itc - ((w1.length - rp : Nat) : Int))).toNat : Nat) : Int) =
        min ((w2.length : Int) - (((0 : Nat) : Nat) : Int))
          (min (itc - ((w1.length - rp : Nat) : Int)) ((w2.length : Int) - 0)) := by
      push_cast; omega
    rw [copyPhase_eq_pos pl st (itc - ((w1.length - rp : Nat) : Int)) w2 w2.length 0
      (min ((w2.length : Int)) (itc - ((w1.length - rp : Nat) : Int))).toNat hkB (by omega)]
    have hkC : ((((w1.length - rp) +
          (min ((w2.length : Int)) (itc - ((w1.length - rp : Nat) : Int))).toNat : Nat) : Int) =
        min (((w1 ++ w2).length : Int) - (rp : Int)) (min itc (((w1.length + w2.length : Nat) : Int) - 0))) := by
      rw [List.length_append]; push_cast; omega
    rw [copyPhase_eq_pos pl st itc (w1 ++ w2) (w1.length + w2.length) rp
      ((w1.length - rp) + (min ((w2.length : Int)) (itc - ((w1.length - rp : Nat) : Int))).toNat)
      hkC (by omega)]
    right
    have harith : itc - (((w1.length - rp) +
          (min ((w2.length : Int)) (itc - ((w1.length - rp : Nat) : Int))).toNat : Nat) : Int) =
        itc - ((w1.length - rp : Nat) : Int) -
          ((((min ((w2.length : Int)) (itc - ((w1.length - rp : Nat) : Int))).toNat : Nat)) : Int) := by
      push_cast; ring
    have houtA : (w1.drop rp).take (w1.length - rp) = w1.drop rp :=
      List.take_of_length_le (by rw [List.length_drop])
    have houtC : ((w1 ++ w2).drop rp).take
          ((w1.length - rp) + (min ((w2.length : Int)) (itc - ((w1.length - rp : Nat) : Int))).toNat) =
        w1.drop rp ++
          w2.take (min ((w2.length : Int)) (itc - ((w1.length - rp : Nat) : Int))).toNat := by
      rw [List.drop_append_of_le_length (by omega), List.take_append_eq_append_take,
          List.take_of_length_le (by rw [List.length_drop]; omega), List.length_drop]
      have harg : (w1.length - rp) +
            (min ((w2.length : Int)) (itc - ((w1.length - rp : Nat) : Int))).toNat -
            (w1.length - rp) =
          (min ((w2.length : Int)) (itc - ((w1.length - rp : Nat) : Int))).toNat := by
        omega
      rw [harg]
    refine ⟨by dsimp only; omega, by dsimp only; omega, rfl, hitcA, ?_, by dsimp only; omega, ?_⟩
    · rw [harith]
    · dsimp only
      rw [houtA, houtC, List.drop_zero]

theorem general_work_copying_of (s : ExtractorState) (hs : s.state = .Copying)
    (nread : Nat) (tags : List Tag) (in0 : List Nat) (cap : Nat) :
    general_work s nread tags in0 cap =
      ⟨(copyPhase s in0 cap 0).1, (copyPhase s in0 cap 0).2.1,
       (copyPhase s in0 cap 0).2.2, cap⟩ := by
  obtain ⟨pl, st, itc⟩ := s
  cases hs
  rfl

theorem step_split (tags : List Tag) (hsort : TagsSorted tags) (s : ExtractorState)
    (hpl : 0 < s.packet_len) (hinv : ExtInv s) (w1 w2 : List Nat)
    (h1 : w1.length ≠ 0) (h2 : w2.length ≠ 0) (nread : Nat) :
    ((general_work s nread tags (w1 ++ w2) (w1 ++ w2).length).st
        = (general_work s nread tags w1 w1.length).st ∧
     (general_work s nread tags (w1 ++ w2) (w1 ++ w2).length).consumed
        = (general_work s nread tags w1 w1.length).consumed ∧
     (general_work s nread tags (w1 ++ w2) (w1 ++ w2).length).out
        = (general_work s nread tags w1 w1.length).out ∧
     (general_work s nread tags (w1 ++ w2) (w1 ++ w2).length).consumed ≤ w1.length)
    ∨ (w1.length < (general_work s nread tags (w1 ++ w2) (w1 ++ w2).length).consumed ∧
       (general_work s nread tags w1 w1.length).consumed = w1.length ∧
       (general_work s nread tags (w1 ++ w2) (w1 ++ w2).length).st
          = (general_work (general_work s nread tags w1 w1.length).st
              (nread + w1.length) tags w2 w2.length).st ∧
       (general_work s nread tags (w1 ++ w2) (w1 ++ w2).length).consumed
          = w1.length + (general_work (general_work s nread tags w1 w1.length).st
              (nread + w1.length) tags w2 w2.length).consumed ∧
       (general_work s nread tags (w1 ++ w2) (w1 ++ w2).length).out
          = (general_work s nread tags w1 w1.length).out ++
            (general_work (general_work s nread tags w1 w1.length).st
              (nread + w1.length) tags w2 w2.length).out) := by
  obtain ⟨pl, st0, itc⟩ := s
  obtain ⟨h0, hle, hiff⟩ := hinv
  dsimp only at hpl h0 hle hiff
  cases st0 with
  | Copying =>
    have hitc : 0 < itc := hiff.mp rfl
    rw [general_work_copying pl itc nread tags (w1 ++ w2) (w1 ++ w2).length,
        general_work_copying pl itc nread tags w1 w1.length]
    rw [List.length_append]
    rcases copyPhase_split pl itc .Copying hitc w1 w2 h2 0 (by omega) with
      ⟨heq, hle2⟩ | ⟨hgt, hA1, hAst, hitcA, hCB, hCons, hOut⟩
    · left
      refine ⟨by dsimp only; rw [heq], by dsimp only; rw [heq],
              by dsimp only; rw [heq], by dsimp only; exact hle2⟩
    · right
      refine ⟨by dsimp only; exact hgt, by dsimp only; exact hA1, ?_, ?_, ?_⟩
      · dsimp only
        rw [hAst, general_work_copying]
        dsimp only
        exact hCB
      · dsimp only
        rw [hAst, general_work_copying]
        dsimp only
        exact hCons
      · dsimp only
        rw [hAst, general_work_copying]
        dsimp only
        exact hOut
  | Searching =>
    cases hfindBig : (getTagsInWindow tags nread (w1 ++ w2).length).find?
        (fun t => t.key == start_key) with
    | none =>
      have hfindA : (getTagsInWindow tags nread w1.length).find?
          (fun t => t.key == start_key) = none := by
        refine find?_filter_none_sub _ _ _ ?_ tags hfindBig
        intro x hx
        simp only [Bool.and_eq_true, decide_eq_true_eq, List.length_append] at hx ⊢
        omega
      have hfindB : (getTagsInWindow tags (nread + w1.length) w2.length).find?
          (fun t => t.key == start_key) = none := by
        refine find?_filter_none_sub _ _ _ ?_ tags hfindBig
        intro x hx
        simp only [Bool.and_eq_true, decide_eq_true_eq, List.length_append] at hx ⊢
        omega
      rw [general_work_searching_none pl itc nread tags (w1 ++ w2) (w1 ++ w2).length hfindBig,
          general_work_searching_none pl itc nread tags w1 w1.length hfindA]
      right
      refine ⟨?_, rfl, ?_, ?_, ?_⟩
      · dsimp only
        rw [List.length_append]
        omega
      · dsimp only
        rw [general_work_searching_none pl itc (nread + w1.length) tags w2 w2.length hfindB]
      · dsimp only
        rw [general_work_searching_none pl itc (nread + w1.length) tags w2 w2.length hfindB]
        dsimp only
        rw [List.length_append]
      · dsimp only
        rw [general_work_searching_none pl itc (nread + w1.length) tags w2 w2.length hfindB]
        simp
    | some tag =>
      have hb := tag_in_window_bounds tags nread (w1 ++ w2).length tag hfindBig
      rw [List.length_append] at hb
      by_cases htag : tag.offset < nread + w1.length
      · -- the first matching tag lies in the `w1` part
        have hfindA : (getTagsInWindow tags nread w1.length).find?
            (fun t => t.key == start_key) = some tag := by
          refine find?_filter_sub _ _ _ ?_ tags tag hfindBig ?_
          · intro x hx
            simp only [Bool.and_eq_true, decide_eq_true_eq, List.length_append] at hx ⊢
            omega
          · simp only [Bool.and_eq_true, decide_eq_true_eq]
            omega
        rw [general_work_searching_some pl itc nread tags (w1 ++ w2) (w1 ++ w2).length tag hfindBig,
            general_work_searching_some pl itc nread tags w1 w1.length tag hfindA]
        rw [List.length_append]
        have hrp : tag.offset - nread < w1.length := by omega
        rcases copyPhase_split pl pl .Copying (by omega) w1 w2 h2 (tag.offset - nread) hrp with
          ⟨heq, hle2⟩ | ⟨hgt, hA1, hAst, hitcA, hCB, hCons, hOut⟩
        · left
          refine ⟨by dsimp only; rw [heq], by dsimp only; rw [heq],
                  by dsimp only; rw [heq], by dsimp only; exact hle2⟩
        · right
          refine ⟨by dsimp only; exact hgt, by dsimp only; exact hA1, ?_, ?_, ?_⟩
          · dsimp only
            rw [hAst, general_work_copying]
            dsimp only
            exact hCB
          · dsimp only
            rw [hAst, general_work_copying]
            dsimp only
            exact hCons
          · dsimp only
            rw [hAst, general_work_copying]
            dsimp only
            exact hOut
      · -- the first matching tag lies in the `w2` part
        have hfindA : (getTagsInWindow tags nread w1.length).find?
            (fun t => t.key == start_key) = none := by
          refine find?_filter_high_none _ _ _ (nread + w1.length) ?_ tags hsort tag
            hfindBig (by omega)
          intro x hx
          simp only [Bool.and_eq_true, decide_eq_true_eq, List.length_append] at hx ⊢
          omega
        have hfindB : (getTagsInWindow tags (nread + w1.length) w2.length).find?
            (fun t => t.key == start_key) = some tag := by
          refine find?_filter_sub _ _ _ ?_ tags tag hfindBig ?_
          · intro x hx
            simp only [Bool.and_eq_true, decide_eq_true_eq, List.length_append] at hx ⊢
            omega
          · simp only [Bool.and_eq_true, decide_eq_true_eq]
            omega
        rw [general_work_searching_some pl itc nread tags (w1 ++ w2) (w1 ++ w2).length tag hfindBig,
            general_work_searching_none pl itc nread tags w1 w1.length hfindA]
        have hkB : (((min ((w2.length : Int) - ((tag.offset - (nread + w1.length) : Nat) : Int))
              (min pl ((w2.length : Int) - 0))).toNat : Nat) : Int) =
            min ((w2.length : Int) - ((tag.offset - (nread + w1.length) : Nat) : Int))
              (min pl ((w2.length : Int) - 0)) := by
          push_cast
          omega
        have hkC : (((min ((w2.length : Int) - ((tag.offset - (nread + w1.length) : Nat) : Int))
              (min pl ((w2.length : Int) - 0))).toNat : Nat) : Int) =
            min (((w1 ++ w2).length : Int) - ((tag.offset - nread : Nat) : Int))
              (min pl (((w1 ++ w2).length : Int) - 0)) := by
          rw [List.length_append]
          push_cast
          omega
        have hposK : 0 < (min ((w2.length : Int) - ((tag.offset - (nread + w1.length) : Nat) : Int))
            (min pl ((w2.length : Int) - 0))).toNat := by omega
        rw [copyPhase_eq_pos pl .Copying pl (w1 ++ w2) (w1 ++ w2).length (tag.offset - nread)
            (min ((w2.length : Int) - ((tag.offset - (nread + w1.length) : Nat) : Int))
              (min pl ((w2.length : Int) - 0))).toNat hkC hposK]
        right
        refine ⟨by dsimp only; omega, rfl, ?_, ?_, ?_⟩
        · dsimp only
          rw [general_work_searching_some pl itc (nread + w1.length) tags w2 w2.length tag hfindB]
          rw [copyPhase_eq_pos pl .Copying pl w2 w2.length (tag.offset - (nread + w1.length))
            (min ((w2.length : Int) - ((tag.offset - (nread + w1.length) : Nat) : Int))
              (min pl ((w2.length : Int) - 0))).toNat hkB hposK]
        · dsimp only
          rw [general_work_searching_some pl itc (nread + w1.length) tags w2 w2.length tag hfindB]
          rw [copyPhase_eq_pos pl .Copying pl w2 w2.length (tag.offset - (nread + w1.length))
            (min ((w2.length : Int) - ((tag.offset - (nread + w1.length) : Nat) : Int))
              (min pl ((w2.length : Int) - 0))).toNat hkB hposK]
          dsimp only
          omega
        · dsimp only
          rw [general_work_searching_some pl itc (nread + w1.length) tags w2 w2.length tag hfindB]
          rw [copyPhase_eq_pos pl .Copying pl w2 w2.length (tag.offset - (nread + w1.length))
            (min ((w2.length : Int) - ((tag.offset - (nread + w1.length) : Nat) : Int))
              (min pl ((w2.length : Int) - 0))).toNat hkB hposK]
          dsimp only
          rw [List.nil_append, List.drop_append_eq_append_drop,
            List.drop_eq_nil_of_le (by omega), List.nil_append]
          have harg : tag.offset - nread - w1.length = tag.offset - (nread + w1.length) := by
            omega
          rw [harg]

theorem driveWindow_append (tags : List Tag) (hsort : TagsSorted tags) :
    ∀ (N : Nat) (w1 w2 : List Nat), w1.length ≤ N →
      ∀ (s : ExtractorState) (nread : Nat), 0 < s.packet_len → ExtInv s →
      driveWindow (w1 ++ w2).length s nread tags (w1 ++ w2) =
        ((driveWindow w2.length (driveWindow w1.length s nread tags w1).1
            (driveWindow w1.length s nread tags w1).2.1 tags w2).1,
         (driveWindow w2.length (driveWindow w1.length s nread tags w1).1
            (driveWindow w1.length s nread tags w1).2.1 tags w2).2.1,
         (driveWindow w1.length s nread tags w1).2.2 ++
           (driveWindow w2.length (driveWindow w1.length s nread tags w1).1
              (driveWindow w1.length s nread tags w1).2.1 tags w2).2.2) := by
  intro N
  induction N with
  | zero =>
    intro w1 w2 hw1 s nread hpl hinv
    have hnil : w1 = [] := List.length_eq_zero.mp (by omega)
    subst hnil
    rw [driveWindow_nil]
    simp
  | succ N ih =>
    intro w1 w2 hw1 s nread hpl hinv
    by_cases hne1 : w1.length = 0
    · have hnil : w1 = [] := List.length_eq_zero.mp hne1
      subst hnil
      rw [driveWindow_nil]
      simp
    by_cases hne2 : w2.length = 0
    · have hnil : w2 = [] := List.length_eq_zero.mp hne2
      subst hnil
      rw [driveWindow_nil]
      simp
    have hLne : (w1 ++ w2).length ≠ 0 := by rw [List.length_append]; omega
    have hinvA := general_work_inv s hpl hinv nread tags w1 w1.length
    have hplA : 0 < (general_work s nread tags w1 w1.length).st.packet_len := by
      rw [hinvA.2]; exact hpl
    have hcposA : 0 < (general_work s nread tags w1 w1.length).consumed :=
      general_work_consumed_pos s hpl hinv nread tags w1 hne1
    rw [driveWindow_pos ((w1 ++ w2).length) hLne s nread tags (w1 ++ w2) hLne,
        driveWindow_pos (w1.length) hne1 s nread tags w1 hne1]
    rcases step_split tags hsort s hpl hinv w1 w2 hne1 hne2 nread with
      ⟨hst, hcons, hout, hcle⟩ | ⟨hgt, hA1, hst, hcons, hout⟩
    · -- the combined first step acts entirely inside `w1`
      rw [hst, hcons, hout]
      rw [List.drop_append_of_le_length (by omega)]
      rw [driveWindow_fuel_eq tags
        ((w1.drop (general_work s nread tags w1 w1.length).consumed ++ w2).length)
        (w1.drop (general_work s nread tags w1 w1.length).consumed ++ w2) (le_refl _)
        ((w1 ++ w2).length - 1)
        ((w1.drop (general_work s nread tags w1 w1.length).consumed ++ w2).length)
        (general_work s nread tags w1 w1.length).st
        (nread + (general_work s nread tags w1 w1.length).consumed)
        hplA hinvA.1
        (by rw [List.length_append, List.length_append, List.length_drop]; omega)
        (le_refl _)]
      rw [ih (w1.drop (general_work s nread tags w1 w1.length).consumed) w2
        (by rw [List.length_drop]; omega)
        (general_work s nread tags w1 w1.length).st
        (nread + (general_work s nread tags w1 w1.length).consumed) hplA hinvA.1]
      rw [driveWindow_fuel_eq tags
        ((w1.drop (general_work s nread tags w1 w1.length).consumed).length)
        (w1.drop (general_work s nread tags w1 w1.length).consumed) (le_refl _)
        (w1.length - 1)
        ((w1.drop (general_work s nread tags w1 w1.length).consumed).length)
        (general_work s nread tags w1 w1.length).st
        (nread + (general_work s nread tags w1 w1.length).consumed)
        hplA hinvA.1
        (by rw [List.length_drop]; omega)
        (le_refl _)]
      dsimp only
      rw [List.append_assoc]
    · -- the combined first step crosses into `w2`
      have hinvB := general_work_inv (general_work s nread tags w1 w1.length).st hplA hinvA.1
        (nread + w1.length) tags w2 w2.length
      have hplB : 0 < (general_work (general_work s nread tags w1 w1.length).st
          (nread + w1.length) tags w2 w2.length).st.packet_len := by
        rw [hinvB.2]; exact hplA
      rw [hst, hcons, hout, hA1, List.drop_length, driveWindow_nil]
      dsimp only
      rw [driveWindow_pos (w2.length) hne2
        (general_work s nread tags w1 w1.length).st (nread + w1.length) tags w2 hne2]
      have hdropC : (w1 ++ w2).drop
          (w1.length + (general_work (general_work s nread tags w1 w1.length).st
            (nread + w1.length) tags w2 w2.length).consumed) =
          w2.drop ((general_work (general_work s nread tags w1 w1.length).st
            (nread + w1.length) tags w2 w2.length).consumed) := by
        rw [List.drop_append_eq_append_drop, List.drop_eq_nil_of_le (by omega),
          List.nil_append]
        have harg : w1.length + (general_work (general_work s nread tags w1 w1.length).st
            (nread + w1.length) tags w2 w2.length).consumed - w1.length =
            (general_work (general_work s nread tags w1 w1.length).st
              (nread + w1.length) tags w2 w2.length).consumed := by omega
        rw [harg]
      rw [hdropC]
      have hcposB : 0 < (general_work (general_work s nread tags w1 w1.length).st
          (nread + w1.length) tags w2 w2.length).consumed := by omega
      have hnarith : nread + (w1.length + (general_work (general_work s nread tags w1 w1.length).st
          (nread + w1.length) tags w2 w2.length).consumed) =
          nread + w1.length + (general_work (general_work s nread tags w1 w1.length).st
            (nread + w1.length) tags w2 w2.length).consumed := by omega
      rw [hnarith]
      rw [driveWindow_fuel_eq tags
        ((w2.drop ((general_work (general_work s nread tags w1 w1.length).st
            (nread + w1.length) tags w2 w2.length).consumed)).length)
        (w2.drop ((general_work (general_work s nread tags w1 w1.length).st
            (nread + w1.length) tags w2 w2.length).consumed)) (le_refl _)
        ((w1 ++ w2).length - 1)
        ((w2.drop ((general_work (general_work s nread tags w1 w1.length).st
            (nread + w1.length) tags w2 w2.length).consumed)).length)
        (general_work (general_work s nread tags w1 w1.length).st
            (nread + w1.length) tags w2 w2.length).st
        (nread + w1.length + (general_work (general_work s nread tags w1 w1.length).st
            (nread + w1.length) tags w2 w2.length).consumed)
        hplB hinvB.1
        (by rw [List.length_append, List.length_drop]; omega)
        (le_refl _)]
      rw [driveWindow_fuel_eq tags
        ((w2.drop ((general_work (general_work s nread tags w1 w1.length).st
            (nread + w1.length) tags w2 w2.length).consumed)).length)
        (w2.drop ((general_work (general_work s nread tags w1 w1.length).st
            (nread + w1.length) tags w2 w2.length).consumed)) (le_refl _)
        (w2.length - 1)
        ((w2.drop ((general_work (general_work s nread tags w1 w1.length).st
            (nread + w1.length) tags w2 w2.length).consumed)).length)
        (general_work (general_work s nread tags w1 w1.length).st
            (nread + w1.length) tags w2 w2.length).st
        (nread + w1.length + (general_work (general_work s nread tags w1 w1.length).st
            (nread + w1.length) tags w2 w2.length).consumed)
        hplB hinvB.1
        (by rw [List.length_drop]; omega)
        (le_refl _)]
      dsimp only
      simp only [List.append_nil, List.append_assoc]

instance (tags : List Tag) : Decidable (TagsSorted tags) := by
  unfold TagsSorted
  exact List.instDecidablePairwise tags

theorem drivePartition_eq_single (tags : List Tag) (hsort : TagsSorted tags) :
    ∀ (ws : List (List Nat)) (s : ExtractorState) (nread : Nat),
      0 < s.packet_len → ExtInv s →
      drivePartition s nread tags ws =
        driveWindow ws.flatten.length s nread tags ws.flatten := by
  intro ws
  induction ws with
  | nil =>
    intro s nread _ _
    rw [List.flatten_nil, driveWindow_nil]
    rfl
  | cons w ws ih =>
    intro s nread hpl hinv
    rw [List.flatten_cons]
    rw [driveWindow_append tags hsort w.length w ws.flatten (le_refl _) s nread hpl hinv]
    have hd := driveWindow_inv w.length s nread tags w hpl hinv
    have hpl1 : 0 < (driveWindow w.length s nread tags w).1.packet_len := by
      rw [hd.2]; exact hpl
    have hunf : drivePartition s nread tags (w :: ws) =
        ((drivePartition (driveWindow w.length s nread tags w).1
            (driveWindow w.length s nread tags w).2.1 tags ws).1,
         (drivePartition (driveWindow w.length s nread tags w).1
            (driveWindow w.length s nread tags w).2.1 tags ws).2.1,
         (driveWindow w.length s nread tags w).2.2 ++
           (drivePartition (driveWindow w.length s nread tags w).1
              (driveWindow w.length s nread tags w).2.1 tags ws).2.2) := rfl
    rw [hunf, ih (driveWindow w.length s nread tags w).1
      (driveWindow w.length s nread tags w).2.1 hpl1 hd.1]

/-- C2: delivering a byte stream and its sync events in any partition of
windows — each window driven to full consumption (over as many invocations
as needed) before the next is delivered, each event visible exactly in the
windows whose absolute range contains its offset, and with output capacity
that never binds — produces exactly the same bytes (hence the same sequence
of extracted payloads, byte for byte) as delivering the entire stream as one
single window.  Required side conditions: positive `packetLength`, the state
invariant (satisfied by the initial state), and stream-ordered (sorted) tag
offsets. -/
theorem C2_partition_invariance (s : ExtractorState) (hpl : 0 < s.packet_len)
    (hinv : ExtInv s) (tags : List Tag) (hsort : TagsSorted tags) (nread : Nat)
    (ws : List (List Nat)) :
    (drivePartition s nread tags ws).2.2 =
      (driveWindow ws.flatten.length s nread tags ws.flatten).2.2 := by
  rw [drivePartition_eq_single tags hsort ws s nread hpl hinv]

theorem C2_partition_invariance_witness :
    (drivePartition (PacketExtractor.init 3) 0
        [⟨start_key, 2⟩, ⟨start_key, 7⟩] [[0, 1, 2], [3], [4, 5, 6, 7], [8, 9]]).2.2 =
      (driveWindow ([[0, 1, 2], [3], [4, 5, 6, 7], [8, 9]] : List (List Nat)).flatten.length
        (PacketExtractor.init 3) 0 [⟨start_key, 2⟩, ⟨start_key, 7⟩]
        ([[0, 1, 2], [3], [4, 5, 6, 7], [8, 9]] : List (List Nat)).flatten).2.2 :=
  C2_partition_invariance (PacketExtractor.init 3) (by decide) (by decide)
    [⟨start_key, 2⟩, ⟨start_key, 7⟩] (by decide) 0 [[0, 1, 2], [3], [4, 5, 6, 7], [8, 9]]
